import Mathlib

/-!
Shallow embedding of the write-aid orchestration core
(`src/api/analyze.py` and `src/backend/app.py`).

Strings are modelled as `List Char` (`Str`).  The remote FinChat service is
modelled as an oracle supplying, per call, the outcome of each HTTP
interaction; the client and pipeline functions are translated directly from
the Python source.
-/

namespace WriteAid

abbrev Str := List Char

/-- Sentence-terminal punctuation of the regex `(?<=[.!?])\s+`. -/
def isTerm (c : Char) : Bool := c == '.' || c == '!' || c == '?'

/-- Python `str.strip()`: drop whitespace from both ends. -/
def pyStrip (s : Str) : Str :=
  ((s.dropWhile Char.isWhitespace).reverse.dropWhile Char.isWhitespace).reverse

/-- State of the one-pass scanner implementing `re.split(r'(?<=[.!?])\s+', s)`:
`pieces` are the completed fragments, `acc` the current fragment reversed,
`prev` the previously consumed character, `inSep` whether we are inside a
whitespace separator run. -/
structure SplitState where
  pieces : List Str
  acc : Str
  prev : Char
  inSep : Bool
deriving DecidableEq

def splitStep (st : SplitState) (c : Char) : SplitState :=
  if st.inSep then
    if c.isWhitespace then { st with prev := c }
    else { st with acc := [c], prev := c, inSep := false }
  else
    if c.isWhitespace && isTerm st.prev then
      { pieces := st.pieces ++ [st.acc.reverse], acc := [], prev := c, inSep := true }
    else
      { st with acc := c :: st.acc, prev := c }

def splitFinish (st : SplitState) : List Str := st.pieces ++ [st.acc.reverse]

/-- `re.split(r'(?<=[.!?])\s+', s)`.  The initial `prev` is any
non-terminal character: a lookbehind can never match at position 0. -/
def reSplit (s : Str) : List Str :=
  splitFinish (s.foldl splitStep ⟨[], [], 'A', false⟩)

/-- `SentenceSplitter.split_paragraph`:
`[s.strip() for s in re.split(pattern, paragraph.strip()) if s.strip()]`. -/
def split_paragraph (paragraph : Str) : List Str :=
  ((reSplit (pyStrip paragraph)).map pyStrip).filter (fun s => s ≠ [])

/-- Python `s.replace(old, new, 1)`: replace the first occurrence of `old`
(insertion at the front when `old` is empty, unchanged when absent). -/
def replaceFirst : Str → Str → Str → Str
  | [], old, new => if old.isPrefixOf [] then new else []
  | c :: cs, old, new =>
    if old.isPrefixOf (c :: cs) then new ++ (c :: cs).drop old.length
    else c :: replaceFirst cs old new

/-! ### Remote client model -/

/-- The data of a failed HTTP call, from which `call_remote` builds the
`ValueError` message it raises. -/
structure CallFailure where
  method : Str
  url : Str
  status : Nat
  text : Str
deriving DecidableEq

/-- `str(e)` for the `ValueError` raised by `call_remote`:
`f"Failed to call {method} {full_url}:\nstatus:{status}\n\n{text}"`. -/
def failMsg (f : CallFailure) : Str :=
  "Failed to call ".toList ++ f.method ++ " ".toList ++ f.url
    ++ ":\nstatus:".toList ++ (toString f.status).toList ++ "\n\n".toList ++ f.text

/-- The JSON analysis payload, as far as `extract_improved_sentence`
inspects it: either a dict with a `content` field or anything else. -/
inductive AnalysisResult where
  | withContent (content : Str)
  | noContent
deriving DecidableEq

/-- `FinChatClient.extract_improved_sentence`: the `content` field when
present and truthy, else `None`.  Never raises. -/
def extract_improved_sentence : AnalysisResult → Option Str
  | .withContent c => if c = [] then none else some c
  | .noContent => none

/-- The remote service's behaviour for one sentence-processing attempt:
outcome of session creation, request submission, the poll-until-idle loop
(which either terminates or raises a transport error), and the whole
bounded-retry `get_result` procedure (`none` on exhausted retries). -/
structure RemoteCall where
  create : Except CallFailure Str
  submit : Except CallFailure Unit
  waitIdle : Except CallFailure Unit
  getResult : Option AnalysisResult

/-- One entry of the per-sentence results list (the dict built by
`process_sentence_with_author`, plus the `round` / `is_reprocessing` keys
the round loop adds). -/
structure SentenceResult where
  sentence_index : Nat
  sentence : Str
  improved_sentence : Option Str
  session_id : Option Str
  author_used : Str
  success : Bool
  error : Option Str
  round : Nat
  is_reprocessing : Bool
deriving DecidableEq

instance : Inhabited SentenceResult :=
  ⟨⟨0, [], none, none, [], false, none, 0, false⟩⟩

/-- Failure dict of `process_sentence_with_author`'s `except` branch. -/
def failureResult (idx : Nat) (target : Str) (author : Str) (f : CallFailure) :
    SentenceResult :=
  { sentence_index := idx, sentence := target, improved_sentence := none,
    session_id := none, author_used := author, success := false,
    error := some (failMsg f), round := 0, is_reprocessing := false }

/-- `WriteAidProcessor.process_sentence_with_author`: create a session,
submit the request, wait until idle, fetch the result, extract the revision;
any raised `ValueError` is caught and becomes a `success=False` record. -/
def process_sentence_with_author (call : RemoteCall) (target : Str) (idx : Nat)
    (author : Str) : SentenceResult :=
  match call.create with
  | .error f => failureResult idx target author f
  | .ok sid =>
    match call.submit with
    | .error f => failureResult idx target author f
    | .ok _ =>
      match call.waitIdle with
      | .error f => failureResult idx target author f
      | .ok _ =>
        let improved := call.getResult.bind extract_improved_sentence
        { sentence_index := idx, sentence := target, improved_sentence := improved,
          session_id := some sid, author_used := author, success := true,
          error := none, round := 0, is_reprocessing := false }

/-- Python truthiness of the `improved_sentence` value
(`None` and the empty string are falsy). -/
def truthy : Option Str → Bool
  | none => false
  | some s => s ≠ []

/-! ### Sequential pipeline (`WriteAidProcessor.process_paragraph`) -/

/-- The `processing_direction` request parameter. -/
inductive Direction where
  | firstToLast
  | lastToFirst
deriving DecidableEq

/-- The remote service's behaviour, indexed by round number, sentence index,
target sentence, context paragraph and author of the attempt. -/
abbrev Oracle := Nat → Nat → Str → Str → Str → RemoteCall

/-- `processing_indices`: forward `range(n)`, or
`range(len-1, -1, -1)` for `last-to-first`. -/
def processingIndices (dir : Direction) (n : Nat) : List Nat :=
  match dir with
  | .firstToLast => List.range n
  | .lastToFirst => (List.range n).reverse

/-- Loop state of one processing round: the in-memory sentence list, the
progressively mutated paragraph and the results accumulated so far
(in visitation order). -/
structure RoundState where
  sentences : List Str
  paragraph : Str
  results : List SentenceResult
deriving DecidableEq

instance : Inhabited RoundState := ⟨⟨[], [], []⟩⟩

/-- The sentence outcome produced inside the round loop: the result of
`process_sentence_with_author` with the `round` and `is_reprocessing` keys
added. -/
def stepOutcome (oracle : Oracle) (roundNum : Nat) (author : Str)
    (st : RoundState) (i : Nat) : SentenceResult :=
  let target := st.sentences.getD i []
  let r := process_sentence_with_author (oracle roundNum i target st.paragraph author)
    target i author
  { r with round := roundNum + 1, is_reprocessing := roundNum > 0 }

/-- One iteration of the inner `for` loop of `process_paragraph`: record the
outcome, and on a successful truthy revision replace the first occurrence of
the at-the-time sentence in the paragraph and update the sentence list. -/
def stepSentence (oracle : Oracle) (roundNum : Nat) (author : Str)
    (st : RoundState) (i : Nat) : RoundState :=
  let result := stepOutcome oracle roundNum author st i
  if result.success && truthy result.improved_sentence then
    match result.improved_sentence with
    | some newS =>
      { sentences := st.sentences.set i newS,
        paragraph := replaceFirst st.paragraph (st.sentences.getD i []) newS,
        results := st.results ++ [result] }
    | none => { st with results := st.results ++ [result] }
  else { st with results := st.results ++ [result] }

/-- One processing round: re-segment the current paragraph, then visit every
sentence in direction order. -/
def runRound (oracle : Oracle) (dir : Direction) (roundNum : Nat) (author : Str)
    (paragraph : Str) : RoundState :=
  let sentences := split_paragraph paragraph
  (processingIndices dir sentences.length).foldl
    (stepSentence oracle roundNum author) ⟨sentences, paragraph, []⟩

/-- One entry of `all_rounds_results`. -/
structure RoundReport where
  round : Nat
  is_reprocessing : Bool
  results : List SentenceResult
  paragraph_after_round : Str
deriving DecidableEq

instance : Inhabited RoundReport := ⟨⟨0, false, [], []⟩⟩

/-- The outer `for round_num in range(1 + reprocessing_rounds)` loop:
`remaining` rounds left to run, `rn` the current `round_num`.  Returns the
round reports in order together with the final paragraph. -/
def runRounds (oracle : Oracle) (dir : Direction)
    (initialAuthor reprocessingAuthor : Str) :
    Nat → Nat → Str → List RoundReport × Str
  | 0, _, p => ([], p)
  | remaining + 1, rn, p =>
    let author := if rn = 0 then initialAuthor else reprocessingAuthor
    let st := runRound oracle dir rn author p
    let rest := runRounds oracle dir initialAuthor reprocessingAuthor remaining
      (rn + 1) st.paragraph
    (⟨rn + 1, rn > 0, st.results, st.paragraph⟩ :: rest.1, rest.2)

/-- Stable insertion of a result into a list sorted by `sentence_index`. -/
def insertByIndex (r : SentenceResult) : List SentenceResult → List SentenceResult
  | [] => [r]
  | x :: xs =>
    if r.sentence_index < x.sentence_index then r :: x :: xs
    else x :: insertByIndex r xs

/-- `sorted(results, key=lambda x: x["sentence_index"])`. -/
def sortByIndex : List SentenceResult → List SentenceResult
  | [] => []
  | x :: xs => insertByIndex x (sortByIndex xs)

/-- The dict returned by `process_paragraph` (the fields the claims are
about). -/
structure Report where
  original_paragraph : Str
  final_paragraph : Str
  sentence_results : List SentenceResult
  total_sentences : Nat
  successful_analyses : Nat
  failed_analyses : Nat
  reprocessing_rounds : Nat
  all_rounds_results : List RoundReport
deriving DecidableEq

/-- `WriteAidProcessor.process_paragraph` from `src/api/analyze.py`: the
sentence list used for `total_sentences` is truncated to
`max_sentences_safe = 1`, but each round re-splits the whole current
paragraph; the last round's results, sorted by index, feed the counters. -/
def api_process_paragraph (oracle : Oracle) (paragraph : Str) (dir : Direction)
    (reprocessing_rounds : Nat) (initial_author reprocessing_author : Str) :
    Report :=
  let original_sentences0 := split_paragraph paragraph
  let original_sentences :=
    if original_sentences0.length > 1 then original_sentences0.take 1
    else original_sentences0
  let rounds := runRounds oracle dir initial_author reprocessing_author
    (1 + reprocessing_rounds) 0 paragraph
  let final_round_results := ((rounds.1).getLast?).elim [] RoundReport.results
  let sorted_results := sortByIndex final_round_results
  { original_paragraph := paragraph,
    final_paragraph := rounds.2,
    sentence_results := sorted_results,
    total_sentences := original_sentences.length,
    successful_analyses := (sorted_results.filter (fun r => r.success)).length,
    failed_analyses := (sorted_results.filter (fun r => !r.success)).length,
    reprocessing_rounds := reprocessing_rounds,
    all_rounds_results := rounds.1 }

/-- The paragraph text a given round re-segmented: the request paragraph for
round 0, afterwards the previous round's `paragraph_after_round`. -/
def roundStartParagraph (p : Str) (reports : List RoundReport) (j : Nat) : Str :=
  if j = 0 then p else (reports.getD (j - 1) default).paragraph_after_round

/-- The dict returned by `process_paragraph` in `src/backend/app.py`
(single pass, forward order, no truncation). -/
structure AppReport where
  original_paragraph : Str
  final_paragraph : Str
  sentence_results : List SentenceResult
  total_sentences : Nat
  successful_analyses : Nat
  failed_analyses : Nat
deriving DecidableEq

/-- `WriteAidProcessor.process_paragraph` from `src/backend/app.py`:
one forward pass with progressive updating, author fixed to `"EB White"`.
The oracle is indexed by sentence index, target and context paragraph. -/
def app_process_paragraph (oracle : Nat → Str → Str → RemoteCall)
    (paragraph : Str) : AppReport :=
  let st := runRound (fun _ i s p _ => oracle i s p) .firstToLast 0
    "EB White".toList paragraph
  let sorted_results := sortByIndex st.results
  { original_paragraph := paragraph,
    final_paragraph := st.paragraph,
    sentence_results := sorted_results,
    total_sentences := (split_paragraph paragraph).length,
    successful_analyses := (sorted_results.filter (fun r => r.success)).length,
    failed_analyses := (sorted_results.filter (fun r => !r.success)).length }

/-! ### Poll-until-idle backoff (`FinChatClient.wait_till_idle`) -/

/-- The `backoff_intervals` table of `src/api/analyze.py`. -/
def backoff_intervals : List Nat := [30, 15, 10, 5, 1]

/-- The sleep chosen at the end of loop iteration `checkCount`
(`intervals[check_count - 1]` while the table lasts, else its last entry). -/
def currentBackoff (intervals : List Nat) (checkCount : Nat) : Nat :=
  if checkCount ≤ intervals.length then intervals.getD (checkCount - 1) 0
  else intervals.getLastD 0

/-- The sequence of sleeps performed by `wait_till_idle`, given which poll
attempts find the session idle.  `checks` polls have already happened; the
loop polls, stops if idle, otherwise sleeps and repeats.  `fuel` bounds the
unrolling (the Python loop is unbounded). -/
def waitSleeps (intervals : List Nat) (idleAt : Nat → Bool) :
    Nat → Nat → List Nat
  | 0, _ => []
  | fuel + 1, checks =>
    if idleAt (checks + 1) then []
    else currentBackoff intervals (checks + 1) ::
      waitSleeps intervals idleAt fuel (checks + 1)

/-- All sleeps of one `wait_till_idle` run: the `k`-th entry (0-indexed) is
the wait between poll attempt `k+1` and poll attempt `k+2`. -/
def wait_till_idle_sleeps (intervals : List Nat) (idleAt : Nat → Bool)
    (fuel : Nat) : List Nat :=
  waitSleeps intervals idleAt fuel 0

/-! ### Request validation (`handler.do_POST` in `src/api/analyze.py`) -/

/-- The request body fields the handler reads (absent key = `none`). -/
structure ApiRequest where
  paragraph : Option Str
  processing_direction : Option Str
  reprocessing_rounds : Option Int
  initial_author : Option Str
  reprocessing_author : Option Str

def quoteChar : Char := Char.ofNat 39

def msgMissingParagraph : Str :=
  "Missing ".toList ++ [quoteChar] ++ "paragraph".toList ++ [quoteChar]
    ++ " in request body".toList

def msgEmptyParagraph : Str := "Paragraph cannot be empty".toList

def msgBadDirection : Str :=
  "Invalid processing_direction. Must be ".toList ++ [quoteChar]
    ++ "first-to-last".toList ++ [quoteChar] ++ " or ".toList ++ [quoteChar]
    ++ "last-to-first".toList ++ [quoteChar]

def msgBadRounds : Str := "Invalid reprocessing_rounds. Must be 0 or 1".toList

def dirFirstToLast : Str := "first-to-last".toList

def dirLastToFirst : Str := "last-to-first".toList

/-- The parameters `do_POST` hands to `process_paragraph` once validation
has passed. -/
structure ValidParams where
  paragraph : Str
  direction : Direction
  rounds : Nat
  initial_author : Str
  reprocessing_author : Str
deriving DecidableEq

/-- The validation ladder of `handler.do_POST`, in source order: paragraph
presence, paragraph non-emptiness after `strip()`, direction membership,
rounds range, author defaulting. -/
def validateRequest (data : Option ApiRequest) : Except Str ValidParams :=
  match data with
  | none => .error msgMissingParagraph
  | some d =>
    match d.paragraph with
    | none => .error msgMissingParagraph
    | some praw =>
      let p := pyStrip praw
      if p = [] then .error msgEmptyParagraph
      else
        let dirS := d.processing_direction.getD dirFirstToLast
        if dirS ≠ dirFirstToLast ∧ dirS ≠ dirLastToFirst then
          .error msgBadDirection
        else
          let r := d.reprocessing_rounds.getD 0
          if r < 0 ∨ r > 1 then .error msgBadRounds
          else
            let ia0 := pyStrip (d.initial_author.getD "EB White".toList)
            let ra0 := pyStrip (d.reprocessing_author.getD "EB White".toList)
            .ok { paragraph := p,
                  direction :=
                    if dirS = dirLastToFirst then .lastToFirst else .firstToLast,
                  rounds := r.toNat,
                  initial_author := if ia0 = [] then "EB White".toList else ia0,
                  reprocessing_author := if ra0 = [] then "EB White".toList else ra0 }

/-- `handler.do_POST` after JSON parsing: validate, and only on success run
the pipeline (hence touch the remote service). -/
def handler_do_post (oracle : Oracle) (data : Option ApiRequest) :
    Except (Nat × Str) Report :=
  match validateRequest data with
  | .error m => .error (400, m)
  | .ok v =>
    .ok (api_process_paragraph oracle v.paragraph v.direction v.rounds
      v.initial_author v.reprocessing_author)

/-! ### Further model-level definitions used by the theorems -/

/-- A remote behaviour that never yields a usable revision: every outcome it
can produce is either unsuccessful or carries no truthy `improved_sentence`. -/
def noRevisionCall (c : RemoteCall) : Prop :=
  ∀ target idx author,
    (process_sentence_with_author c target idx author).success = false ∨
    truthy (process_sentence_with_author c target idx author).improved_sentence
      = false

/-- The intermediate loop states of one round, step by step:
entry `k` is the state before visiting the `k`-th sentence in visitation
order, and the last entry is `runRound`'s result. -/
def roundStates (oracle : Oracle) (dir : Direction) (rn : Nat) (author : Str)
    (p : Str) : List RoundState :=
  List.scanl (stepSentence oracle rn author) ⟨split_paragraph p, p, []⟩
    (processingIndices dir (split_paragraph p).length)

/-- A remote behaviour that always succeeds with the fixed revision "Yo!"
(used for concrete instantiations). -/
def okCall : RemoteCall :=
  ⟨.ok "s1".toList, .ok (), .ok (), some (.withContent "Yo!".toList)⟩

def okOracle : Oracle := fun _ _ _ _ _ => okCall

/-- Interleaving of segments and separators: the reconstruction of a split
input from its fragments. -/
def interleave : List Str → List Str → Str
  | [], _ => []
  | [q], _ => q
  | q :: qs, sep :: seps => q ++ sep ++ interleave qs seps
  | q :: qs, [] => q ++ interleave qs []

/-! ## Helper lemmas -/

lemma getLastD_eq_getD : ∀ (l : List Nat) (d : Nat), l.getLastD d = l.getD (l.length - 1) d
  | [], _ => rfl
  | [_], _ => rfl
  | a :: b :: t, d => by
    have ih := getLastD_eq_getD (b :: t) d
    simp only [List.getLastD_cons] at ih ⊢
    simpa using ih

lemma currentBackoff_eq (intervals : List Nat) (hne : intervals ≠ []) (k : Nat)
    (hk : 1 ≤ k) :
    currentBackoff intervals k
      = intervals.getD (min (k - 1) (intervals.length - 1)) 0 := by
  have hlen : 1 ≤ intervals.length := List.length_pos.mpr hne
  unfold currentBackoff
  split
  · rw [Nat.min_eq_left (by omega)]
  · rw [getLastD_eq_getD, Nat.min_eq_right (by omega)]

lemma waitSleeps_getD (intervals : List Nat) (idleAt : Nat → Bool) :
    ∀ (fuel c m : Nat), m < fuel →
      (∀ j, c < j → j ≤ c + m + 1 → idleAt j = false) →
      (waitSleeps intervals idleAt fuel c).getD m 0
        = currentBackoff intervals (c + m + 1) := by
  intro fuel
  induction fuel with
  | zero => intro c m hm; omega
  | succ f ih =>
    intro c m hm hbusy
    have hidle : idleAt (c + 1) = false := hbusy (c + 1) (by omega) (by omega)
    simp only [waitSleeps, hidle, Bool.false_eq_true, if_false]
    cases m with
    | zero => simp
    | succ m' =>
      rw [List.getD_cons_succ, ih (c + 1) m' (by omega)
        (fun j h1 h2 => hbusy j (by omega) (by omega))]
      rw [show c + 1 + m' + 1 = c + (m' + 1) + 1 from by omega]

/-! ## Claims C1, C2, C5, C10 -/

/-- Claim C1: on the paragraph "This is bad. This is also bad." with zero
reprocessing rounds and a remote service that always returns the fixed
revision "This is better.", the sequential pipeline (both the `api/analyze.py`
and the `backend/app.py` implementations) ends with the paragraph
"This is better. This is better." and reports `successful_analyses = 2`. -/
theorem claim1_happy_path_scenario :
    (api_process_paragraph
        (fun _ _ _ _ _ =>
          ⟨.ok "s1".toList, .ok (), .ok (),
            some (.withContent "This is better.".toList)⟩)
        "This is bad. This is also bad.".toList .firstToLast 0
        "EB White".toList "EB White".toList).final_paragraph
      = "This is better. This is better.".toList ∧
    (api_process_paragraph
        (fun _ _ _ _ _ =>
          ⟨.ok "s1".toList, .ok (), .ok (),
            some (.withContent "This is better.".toList)⟩)
        "This is bad. This is also bad.".toList .firstToLast 0
        "EB White".toList "EB White".toList).successful_analyses = 2 ∧
    (app_process_paragraph
        (fun _ _ _ =>
          ⟨.ok "s1".toList, .ok (), .ok (),
            some (.withContent "This is better.".toList)⟩)
        "This is bad. This is also bad.".toList).final_paragraph
      = "This is better. This is better.".toList ∧
    (app_process_paragraph
        (fun _ _ _ =>
          ⟨.ok "s1".toList, .ok (), .ok (),
            some (.withContent "This is better.".toList)⟩)
        "This is bad. This is also bad.".toList).successful_analyses = 2 := by
  decide

/-- Claim C2 is false as stated: with the backoff table `[30, 15, 10, 5, 1]`
of `wait_till_idle`, the wait before poll attempt 2 (the first sleep, index 0
in the sleep sequence) is 30 seconds, whereas the claimed formula
`schedule[min(k-1, n)]` predicts `schedule[min(1, 4)] = 15`.  The first poll
happens immediately, so the schedule is offset by one position from the
claim's indexing. -/
theorem claim2_wait_before_poll_counterexample :
    (wait_till_idle_sleeps backoff_intervals (fun j => decide (6 ≤ j)) 10).getD
        (2 - 2) 0 = 30 ∧
    backoff_intervals.getD (min (2 - 1) (backoff_intervals.length - 1)) 0 = 15 ∧
    (30 : Nat) ≠ 15 := by
  decide

/-- Claim C2 (amended): the wait after poll attempt `k` (equivalently,
before poll attempt `k+1`) equals `schedule[min(k-1, n)]`; no wait precedes
the first poll.  The schedule is consumed in order and clamps to its final
value once exhausted. -/
theorem claim2_backoff_after_poll (intervals : List Nat) (idleAt : Nat → Bool)
    (fuel k : Nat) (hne : intervals ≠ []) (hk : 1 ≤ k) (hfuel : k ≤ fuel)
    (hbusy : ∀ j, 1 ≤ j → j ≤ k → idleAt j = false) :
    (wait_till_idle_sleeps intervals idleAt fuel).getD (k - 1) 0
      = intervals.getD (min (k - 1) (intervals.length - 1)) 0 := by
  unfold wait_till_idle_sleeps
  rw [waitSleeps_getD intervals idleAt fuel 0 (k - 1) (by omega)
    (fun j h1 h2 => hbusy j (by omega) (by omega))]
  rw [show 0 + (k - 1) + 1 = k from by omega]
  exact currentBackoff_eq intervals hne k hk

theorem claim2_backoff_after_poll_witness :
    (wait_till_idle_sleeps backoff_intervals (fun j => decide (6 ≤ j)) 10).getD
        (3 - 1) 0
      = backoff_intervals.getD (min (3 - 1) (backoff_intervals.length - 1)) 0 :=
  claim2_backoff_after_poll backoff_intervals (fun j => decide (6 ≤ j)) 10 3
    (by decide) (by decide) (by decide)
    (fun j h1 h2 => by simp only [decide_eq_false_iff_not]; omega)

lemma runRounds_length (oracle : Oracle) (dir : Direction) (ia ra : Str) :
    ∀ (remaining rn : Nat) (p : Str),
      (runRounds oracle dir ia ra remaining rn p).1.length = remaining := by
  intro remaining
  induction remaining with
  | zero => intro rn p; rfl
  | succ r ih => intro rn p; simp [runRounds, ih]

/-- Claim C5: a request for `r` reprocessing rounds runs `r + 1` processing
rounds and yields exactly `r + 1` entries in `all_rounds_results`. -/
theorem claim5_round_report_count (oracle : Oracle) (p : Str) (dir : Direction)
    (r : Nat) (ia ra : Str) :
    (api_process_paragraph oracle p dir r ia ra).all_rounds_results.length
      = r + 1 := by
  show (runRounds oracle dir ia ra (1 + r) 0 p).1.length = r + 1
  rw [runRounds_length]
  omega

/-- Claim C10: when session creation, submission and polling all succeed but
`get_result` exhausts its retries (returns `None`), the sentence outcome is
recorded as a success with no revision. -/
theorem claim10_graceful_no_result (call : RemoteCall) (target : Str)
    (idx : Nat) (author : Str) (sid : Str) (hc : call.create = .ok sid)
    (hs : call.submit = .ok ()) (hw : call.waitIdle = .ok ())
    (hr : call.getResult = none) :
    (process_sentence_with_author call target idx author).success = true ∧
    (process_sentence_with_author call target idx author).improved_sentence
      = none := by
  simp [process_sentence_with_author, hc, hs, hw, hr]

/-! ## Claim C3: all failures leave the paragraph unchanged -/

lemma stepSentence_no_change (oracle : Oracle) (rn : Nat) (author : Str)
    (st : RoundState) (i : Nat)
    (h : (stepOutcome oracle rn author st i).success = false ∨
      truthy (stepOutcome oracle rn author st i).improved_sentence = false) :
    (stepSentence oracle rn author st i).sentences = st.sentences ∧
    (stepSentence oracle rn author st i).paragraph = st.paragraph := by
  have hcond : ((stepOutcome oracle rn author st i).success &&
      truthy (stepOutcome oracle rn author st i).improved_sentence) = false := by
    rcases h with h | h <;> simp [h]
  simp only [stepSentence, hcond, Bool.false_eq_true, if_false]
  simp

lemma foldl_no_change (oracle : Oracle) (rn : Nat) (author : Str)
    (H : ∀ i s ctx, noRevisionCall (oracle rn i s ctx author)) :
    ∀ (idxs : List Nat) (st : RoundState),
      ((idxs.foldl (stepSentence oracle rn author) st).paragraph = st.paragraph ∧
       (idxs.foldl (stepSentence oracle rn author) st).sentences = st.sentences) := by
  intro idxs
  induction idxs with
  | nil => intro st; exact ⟨rfl, rfl⟩
  | cons i rest ih =>
    intro st
    have hnc := stepSentence_no_change oracle rn author st i
      (H i (st.sentences.getD i []) st.paragraph (st.sentences.getD i []) i author)
    rw [List.foldl_cons]
    refine ⟨?_, ?_⟩
    · rw [(ih (stepSentence oracle rn author st i)).1, hnc.2]
    · rw [(ih (stepSentence oracle rn author st i)).2, hnc.1]

lemma runRound_no_change (oracle : Oracle) (dir : Direction) (rn : Nat)
    (author : Str) (p : Str)
    (H : ∀ i s ctx, noRevisionCall (oracle rn i s ctx author)) :
    (runRound oracle dir rn author p).paragraph = p :=
  (foldl_no_change oracle rn author H _ _).1

lemma runRounds_no_change (oracle : Oracle) (dir : Direction) (ia ra : Str)
    (H : ∀ rn i s ctx a, noRevisionCall (oracle rn i s ctx a)) :
    ∀ (remaining rn : Nat) (p : Str),
      (runRounds oracle dir ia ra remaining rn p).2 = p := by
  intro remaining
  induction remaining with
  | zero => intro rn p; rfl
  | succ r ih =>
    intro rn p
    show (runRounds oracle dir ia ra r (rn + 1)
      (runRound oracle dir rn _ p).paragraph).2 = p
    rw [runRound_no_change oracle dir rn _ p (fun i s ctx => H rn i s ctx _)]
    exact ih (rn + 1) p

/-- Claim C3: if every revision attempt in every round fails or yields no
revision, both sequential pipelines return the original paragraph untouched. -/
theorem claim3_all_failures_identity (oracle : Oracle) (p : Str)
    (dir : Direction) (r : Nat) (ia ra : Str)
    (oracleApp : Nat → Str → Str → RemoteCall)
    (H : ∀ rn i s ctx a, noRevisionCall (oracle rn i s ctx a))
    (Happ : ∀ i s ctx, noRevisionCall (oracleApp i s ctx)) :
    (api_process_paragraph oracle p dir r ia ra).final_paragraph = p ∧
    (app_process_paragraph oracleApp p).final_paragraph = p := by
  constructor
  · show (runRounds oracle dir ia ra (1 + r) 0 p).2 = p
    exact runRounds_no_change oracle dir ia ra H (1 + r) 0 p
  · show (runRound (fun _ i s ctx _ => oracleApp i s ctx) .firstToLast 0
      "EB White".toList p).paragraph = p
    exact runRound_no_change _ _ _ _ _ (fun i s ctx => Happ i s ctx)

theorem claim3_all_failures_identity_witness :
    (api_process_paragraph
        (fun _ _ _ _ _ =>
          ⟨.error ⟨"post".toList, "url".toList, 500, "err".toList⟩, .ok (),
            .ok (), none⟩)
        "Hi there. Bye now.".toList .lastToFirst 1 "a".toList "b".toList
      ).final_paragraph = "Hi there. Bye now.".toList ∧
    (app_process_paragraph
        (fun _ _ _ =>
          ⟨.error ⟨"post".toList, "url".toList, 500, "err".toList⟩, .ok (),
            .ok (), none⟩)
        "Hi there. Bye now.".toList).final_paragraph
      = "Hi there. Bye now.".toList :=
  claim3_all_failures_identity _ _ .lastToFirst 1 "a".toList "b".toList _
    (fun _ _ _ _ _ _ _ _ => Or.inl rfl) (fun _ _ _ _ _ _ => Or.inl rfl)

/-! ## Claim C4: a successful revision updates paragraph and sentence list -/

lemma scanl_getD_zero {α β : Type} (f : α → β → α) (s : α) (l : List β)
    (d : α) : (List.scanl f s l).getD 0 d = s := by
  cases l <;> simp [List.scanl]

lemma scanl_getD_succ {α β : Type} (f : α → β → α) :
    ∀ (l : List β) (s : α) (k : Nat), k < l.length → ∀ (d : α) (d' : β),
      (List.scanl f s l).getD (k + 1) d
        = f ((List.scanl f s l).getD k d) (l.getD k d') := by
  intro l
  induction l with
  | nil => intro s k hk; simp at hk
  | cons a t ih =>
    intro s k hk d d'
    rw [List.scanl_cons]
    cases k with
    | zero => simp [scanl_getD_zero]
    | succ k' =>
      simp only [List.singleton_append, List.getD_cons_succ]
      exact ih (f s a) k' (by simpa using hk) d d'

lemma foldl_eq_scanl_getD {α β : Type} (f : α → β → α) :
    ∀ (l : List β) (s : α) (d : α),
      l.foldl f s = (List.scanl f s l).getD l.length d := by
  intro l
  induction l with
  | nil => intro s d; rfl
  | cons a t ih =>
    intro s d
    rw [List.foldl_cons, List.scanl_cons, List.singleton_append]
    simpa using ih (f s a) d

/-- Claim C4: whenever the outcome of the sentence visited at step `k` of a
round is successful with a non-empty revision `newS`, the loop state after
that step carries the previous paragraph with the first occurrence of the
at-the-time sentence text replaced by `newS`, and the in-memory sentence
list updated at that index, before the next sentence is processed; the last
such state is exactly what `runRound` returns. -/
theorem claim4_success_step_replacement (oracle : Oracle) (dir : Direction)
    (rn : Nat) (author : Str) (p : Str) (k : Nat) (newS : Str)
    (hk : k < (processingIndices dir (split_paragraph p).length).length)
    (hsucc : (stepOutcome oracle rn author
        ((roundStates oracle dir rn author p).getD k default)
        ((processingIndices dir (split_paragraph p).length).getD k 0)).success
      = true)
    (himp : (stepOutcome oracle rn author
        ((roundStates oracle dir rn author p).getD k default)
        ((processingIndices dir (split_paragraph p).length).getD k 0)
        ).improved_sentence = some newS)
    (hne : newS ≠ []) :
    ((roundStates oracle dir rn author p).getD (k + 1) default
      = { sentences :=
            (((roundStates oracle dir rn author p).getD k default).sentences).set
              ((processingIndices dir (split_paragraph p).length).getD k 0) newS,
          paragraph := replaceFirst
            (((roundStates oracle dir rn author p).getD k default).paragraph)
            ((((roundStates oracle dir rn author p).getD k default).sentences).getD
              ((processingIndices dir (split_paragraph p).length).getD k 0) [])
            newS,
          results :=
            (((roundStates oracle dir rn author p).getD k default).results)
              ++ [stepOutcome oracle rn author
                    ((roundStates oracle dir rn author p).getD k default)
                    ((processingIndices dir (split_paragraph p).length).getD k 0)] }) ∧
    runRound oracle dir rn author p
      = (roundStates oracle dir rn author p).getD
          (processingIndices dir (split_paragraph p).length).length default := by
  constructor
  · have hstep : (roundStates oracle dir rn author p).getD (k + 1) default
        = stepSentence oracle rn author
            ((roundStates oracle dir rn author p).getD k default)
            ((processingIndices dir (split_paragraph p).length).getD k 0) := by
      unfold roundStates
      exact scanl_getD_succ _ _ _ k hk default 0
    rw [hstep]
    simp only [stepSentence, hsucc, himp, truthy]
    simp [hne]
  · unfold runRound roundStates
    exact foldl_eq_scanl_getD _ _ _ default

theorem claim4_success_step_replacement_witness :
    (roundStates okOracle .firstToLast 0 "a".toList "Hi. Bye.".toList).getD 1
        default
      = { sentences :=
            (((roundStates okOracle .firstToLast 0 "a".toList
              "Hi. Bye.".toList).getD 0 default).sentences).set
              ((processingIndices .firstToLast
                (split_paragraph "Hi. Bye.".toList).length).getD 0 0)
              "Yo!".toList,
          paragraph := replaceFirst
            (((roundStates okOracle .firstToLast 0 "a".toList
              "Hi. Bye.".toList).getD 0 default).paragraph)
            ((((roundStates okOracle .firstToLast 0 "a".toList
              "Hi. Bye.".toList).getD 0 default).sentences).getD
              ((processingIndices .firstToLast
                (split_paragraph "Hi. Bye.".toList).length).getD 0 0) [])
            "Yo!".toList,
          results :=
            (((roundStates okOracle .firstToLast 0 "a".toList
              "Hi. Bye.".toList).getD 0 default).results)
              ++ [stepOutcome okOracle 0 "a".toList
                    ((roundStates okOracle .firstToLast 0 "a".toList
                      "Hi. Bye.".toList).getD 0 default)
                    ((processingIndices .firstToLast
                      (split_paragraph "Hi. Bye.".toList).length).getD 0 0)] } :=
  (claim4_success_step_replacement okOracle .firstToLast 0 "a".toList
    "Hi. Bye.".toList 0 "Yo!".toList (by decide) (by decide) (by decide)
    (by decide)).1

/-! ## Round invariants: one outcome per segmented sentence, in
visitation order -/

lemma process_sentence_index (c : RemoteCall) (t : Str) (i : Nat) (a : Str) :
    (process_sentence_with_author c t i a).sentence_index = i := by
  rcases c with ⟨cr, su, wi, gr⟩
  unfold process_sentence_with_author
  cases cr <;> cases su <;> cases wi <;> rfl

lemma stepOutcome_index (oracle : Oracle) (rn : Nat) (author : Str)
    (st : RoundState) (i : Nat) :
    (stepOutcome oracle rn author st i).sentence_index = i := by
  simp [stepOutcome, process_sentence_index]

lemma stepSentence_results (oracle : Oracle) (rn : Nat) (author : Str)
    (st : RoundState) (i : Nat) :
    (stepSentence oracle rn author st i).results
      = st.results ++ [stepOutcome oracle rn author st i] := by
  simp only [stepSentence]
  split
  · split <;> rfl
  · rfl

lemma foldl_results_map (oracle : Oracle) (rn : Nat) (author : Str) :
    ∀ (idxs : List Nat) (st : RoundState),
      ((idxs.foldl (stepSentence oracle rn author) st).results).map
          (fun x => x.sentence_index)
        = st.results.map (fun x => x.sentence_index) ++ idxs := by
  intro idxs
  induction idxs with
  | nil => intro st; simp
  | cons i rest ih =>
    intro st
    rw [List.foldl_cons, ih, stepSentence_results]
    simp [stepOutcome_index]

lemma processingIndices_length (dir : Direction) (n : Nat) :
    (processingIndices dir n).length = n := by
  cases dir <;> simp [processingIndices]

lemma runRound_results_map (oracle : Oracle) (dir : Direction) (rn : Nat)
    (author : Str) (p : Str) :
    ((runRound oracle dir rn author p).results).map (fun x => x.sentence_index)
      = processingIndices dir (split_paragraph p).length := by
  unfold runRound
  rw [foldl_results_map]
  simp

lemma runRound_results_length (oracle : Oracle) (dir : Direction) (rn : Nat)
    (author : Str) (p : Str) :
    (runRound oracle dir rn author p).results.length
      = (split_paragraph p).length := by
  have h := congrArg List.length (runRound_results_map oracle dir rn author p)
  simpa [processingIndices_length] using h

lemma roundStart_succ (p : Str) (rep0 : RoundReport) (rest : List RoundReport)
    (j : Nat) :
    roundStartParagraph p (rep0 :: rest) (j + 1)
      = roundStartParagraph rep0.paragraph_after_round rest j := by
  unfold roundStartParagraph
  cases j with
  | zero => simp
  | succ j' => simp

lemma runRounds_results_map (oracle : Oracle) (dir : Direction) (ia ra : Str) :
    ∀ (remaining rn : Nat) (p : Str) (j : Nat), j < remaining →
      (((runRounds oracle dir ia ra remaining rn p).1.getD j default).results).map
          (fun x => x.sentence_index)
        = processingIndices dir
            (split_paragraph (roundStartParagraph p
              (runRounds oracle dir ia ra remaining rn p).1 j)).length := by
  intro remaining
  induction remaining with
  | zero => intro rn p j hj; omega
  | succ rem ih =>
    intro rn p j hj
    simp only [runRounds]
    cases j with
    | zero =>
      simp only [List.getD_cons_zero, roundStartParagraph, if_pos rfl]
      exact runRound_results_map oracle dir rn _ p
    | succ j' =>
      rw [List.getD_cons_succ, roundStart_succ]
      exact ih (rn + 1) _ j' (by omega)

lemma runRounds_results_length (oracle : Oracle) (dir : Direction) (ia ra : Str)
    (remaining rn : Nat) (p : Str) (j : Nat) (hj : j < remaining) :
    ((runRounds oracle dir ia ra remaining rn p).1.getD j default).results.length
      = (split_paragraph (roundStartParagraph p
          (runRounds oracle dir ia ra remaining rn p).1 j)).length := by
  have h := congrArg List.length
    (runRounds_results_map oracle dir ia ra remaining rn p j hj)
  simpa [processingIndices_length] using h

/-! ## Claim C8: per-sentence isolation of remote failures -/

lemma failMsg_ne_nil (f : CallFailure) : failMsg f ≠ [] := by
  have hpos : 0 < (failMsg f).length := by
    simp only [failMsg, List.length_append]
    have h15 : 0 < ("Failed to call ".toList).length := by decide
    omega
  intro h
  rw [h] at hpos
  simp at hpos

/-- Claim C8: a remote failure (non-success status) during session creation
or request submission makes only that sentence's outcome fail, with the
raised error text (always non-empty) as its error detail; every round of the
pipeline still records one outcome per segmented sentence, so the report is
complete and no top-level error escapes. -/
theorem claim8_per_sentence_isolation (oracle : Oracle) (p : Str)
    (dir : Direction) (r : Nat) (ia ra : Str) :
    (∀ j, j < (api_process_paragraph oracle p dir r ia ra).all_rounds_results.length →
      ((api_process_paragraph oracle p dir r ia ra).all_rounds_results.getD j
          default).results.length
        = (split_paragraph (roundStartParagraph p
            (api_process_paragraph oracle p dir r ia ra).all_rounds_results
            j)).length) ∧
    (∀ (call : RemoteCall) (target : Str) (idx : Nat) (author : Str)
        (f : CallFailure),
      (call.create = .error f →
        (process_sentence_with_author call target idx author).success = false ∧
        (process_sentence_with_author call target idx author).error
          = some (failMsg f) ∧
        failMsg f ≠ []) ∧
      (∀ sid, call.create = .ok sid → call.submit = .error f →
        (process_sentence_with_author call target idx author).success = false ∧
        (process_sentence_with_author call target idx author).error
          = some (failMsg f) ∧
        failMsg f ≠ [])) := by
  constructor
  · intro j hj
    have hlen : (api_process_paragraph oracle p dir r ia ra
        ).all_rounds_results.length = 1 + r := by
      show (runRounds oracle dir ia ra (1 + r) 0 p).1.length = 1 + r
      exact runRounds_length oracle dir ia ra (1 + r) 0 p
    exact runRounds_results_length oracle dir ia ra (1 + r) 0 p j
      (by rw [hlen] at hj; exact hj)
  · intro call target idx author f
    constructor
    · intro hc
      refine ⟨?_, ?_, failMsg_ne_nil f⟩ <;>
        simp [process_sentence_with_author, hc, failureResult]
    · intro sid hc hs
      refine ⟨?_, ?_, failMsg_ne_nil f⟩ <;>
        simp [process_sentence_with_author, hc, hs, failureResult]

theorem claim8_per_sentence_isolation_witness :
    ((api_process_paragraph
        (fun _ i _ _ _ =>
          if i = 0 then
            ⟨.error ⟨"post".toList, "url".toList, 500, "err".toList⟩, .ok (),
              .ok (), none⟩
          else okCall)
        "Aa. Bb.".toList .firstToLast 0 "a".toList "a".toList
      ).all_rounds_results.getD 0 default).results.length
      = (split_paragraph (roundStartParagraph "Aa. Bb.".toList
          (api_process_paragraph
            (fun _ i _ _ _ =>
              if i = 0 then
                ⟨.error ⟨"post".toList, "url".toList, 500, "err".toList⟩,
                  .ok (), .ok (), none⟩
              else okCall)
            "Aa. Bb.".toList .firstToLast 0 "a".toList "a".toList
          ).all_rounds_results 0)).length :=
  (claim8_per_sentence_isolation
    (fun _ i _ _ _ =>
      if i = 0 then
        ⟨.error ⟨"post".toList, "url".toList, 500, "err".toList⟩, .ok (),
          .ok (), none⟩
      else okCall)
    "Aa. Bb.".toList .firstToLast 0 "a".toList "a".toList).1 0 (by decide)

/-! ## Claim C6: outcome counts and ordering -/

lemma mem_insertByIndex (r x : SentenceResult) :
    ∀ l, x ∈ insertByIndex r l → x = r ∨ x ∈ l := by
  intro l
  induction l with
  | nil => intro h; simpa [insertByIndex] using h
  | cons y ys ih =>
    intro h
    simp only [insertByIndex] at h
    by_cases hlt : r.sentence_index < y.sentence_index
    · rw [if_pos hlt] at h
      rcases List.mem_cons.mp h with h | h
      · exact Or.inl h
      · exact Or.inr h
    · rw [if_neg hlt] at h
      rcases List.mem_cons.mp h with h | h
      · exact Or.inr (by simp [h])
      · rcases ih h with h' | h'
        · exact Or.inl h'
        · exact Or.inr (by simp [h'])

lemma pairwise_insertByIndex (r : SentenceResult) :
    ∀ l, List.Pairwise (fun a b : SentenceResult =>
        a.sentence_index ≤ b.sentence_index) l →
      List.Pairwise (fun a b : SentenceResult =>
        a.sentence_index ≤ b.sentence_index) (insertByIndex r l) := by
  intro l
  induction l with
  | nil => intro _; simp [insertByIndex]
  | cons y ys ih =>
    intro h
    rcases List.pairwise_cons.mp h with ⟨hy, hys⟩
    simp only [insertByIndex]
    split
    · refine List.pairwise_cons.mpr ⟨?_, h⟩
      intro z hz
      rcases List.mem_cons.mp hz with hz | hz
      · subst hz; omega
      · have := hy z hz; omega
    · refine List.pairwise_cons.mpr ⟨?_, ih hys⟩
      intro z hz
      rcases mem_insertByIndex r z ys hz with hz | hz
      · subst hz; omega
      · exact hy z hz

lemma pairwise_sortByIndex :
    ∀ l, List.Pairwise (fun a b : SentenceResult =>
      a.sentence_index ≤ b.sentence_index) (sortByIndex l) := by
  intro l
  induction l with
  | nil => simp [sortByIndex]
  | cons x xs ih => exact pairwise_insertByIndex x (sortByIndex xs) ih

/-- Claim C6 is false as stated: with direction `last-to-first` on a
two-sentence paragraph, the round's outcome list in `all_rounds_results` is
stored in visitation order — sentence indices `[1, 0]` — which is not
ascending. -/
theorem claim6_round_order_counterexample :
    ((api_process_paragraph okOracle "Aa. Bb.".toList .lastToFirst 0
        "a".toList "a".toList).all_rounds_results.getD 0 default).results.map
        (fun x => x.sentence_index) = [1, 0] ∧
    ¬ List.Pairwise (fun a b : SentenceResult =>
        a.sentence_index ≤ b.sentence_index)
      ((api_process_paragraph okOracle "Aa. Bb.".toList .lastToFirst 0
        "a".toList "a".toList).all_rounds_results.getD 0 default).results := by
  decide

/-- Claim C6 (amended): every round records exactly one outcome per sentence
segmented at the start of that round, and a round's outcome list appears in
visitation order (ascending indices for `first-to-last`, descending for
`last-to-first`); the top-level `sentence_results` (taken from the final
round) are sorted in ascending sentence-index order. -/
theorem claim6_counts_and_order_amended (oracle : Oracle) (p : Str)
    (dir : Direction) (r : Nat) (ia ra : Str) :
    (∀ j, j < (api_process_paragraph oracle p dir r ia ra).all_rounds_results.length →
      ((api_process_paragraph oracle p dir r ia ra).all_rounds_results.getD j
          default).results.length
        = (split_paragraph (roundStartParagraph p
            (api_process_paragraph oracle p dir r ia ra).all_rounds_results
            j)).length ∧
      ((api_process_paragraph oracle p dir r ia ra).all_rounds_results.getD j
          default).results.map (fun x => x.sentence_index)
        = processingIndices dir
            (split_paragraph (roundStartParagraph p
              (api_process_paragraph oracle p dir r ia ra).all_rounds_results
              j)).length) ∧
    List.Pairwise (fun a b : SentenceResult =>
        a.sentence_index ≤ b.sentence_index)
      (api_process_paragraph oracle p dir r ia ra).sentence_results := by
  constructor
  · intro j hj
    have hlen : (api_process_paragraph oracle p dir r ia ra
        ).all_rounds_results.length = 1 + r := by
      show (runRounds oracle dir ia ra (1 + r) 0 p).1.length = 1 + r
      exact runRounds_length oracle dir ia ra (1 + r) 0 p
    rw [hlen] at hj
    exact ⟨runRounds_results_length oracle dir ia ra (1 + r) 0 p j hj,
      runRounds_results_map oracle dir ia ra (1 + r) 0 p j hj⟩
  · exact pairwise_sortByIndex _

theorem claim6_counts_and_order_witness :
    ((api_process_paragraph okOracle "Aa. Bb.".toList .lastToFirst 0
        "a".toList "a".toList).all_rounds_results.getD 0 default).results.map
        (fun x => x.sentence_index)
      = processingIndices .lastToFirst
          (split_paragraph (roundStartParagraph "Aa. Bb.".toList
            (api_process_paragraph okOracle "Aa. Bb.".toList .lastToFirst 0
              "a".toList "a".toList).all_rounds_results 0)).length :=
  ((claim6_counts_and_order_amended okOracle "Aa. Bb.".toList .lastToFirst 0
    "a".toList "a".toList).1 0 (by decide)).2

/-! ## Claim C7: validation rejects bad requests before any remote call -/

/-- Claim C7: a missing paragraph, an empty (all-whitespace) paragraph, an
invalid `processing_direction` or a `reprocessing_rounds` outside `{0, 1}`
makes `do_POST` answer the code's 400 validation error naming the offending
field; the result is the same for every oracle, so no session is created and
no message is submitted. -/
theorem claim7_validation_rejects_before_remote (oracle : Oracle)
    (d : ApiRequest) :
    (handler_do_post oracle none = .error (400, msgMissingParagraph)) ∧
    (d.paragraph = none →
      handler_do_post oracle (some d) = .error (400, msgMissingParagraph)) ∧
    (∀ praw, d.paragraph = some praw → pyStrip praw = [] →
      handler_do_post oracle (some d) = .error (400, msgEmptyParagraph)) ∧
    (∀ praw, d.paragraph = some praw → pyStrip praw ≠ [] →
      ∀ dirS, d.processing_direction = some dirS → dirS ≠ dirFirstToLast →
      dirS ≠ dirLastToFirst →
      handler_do_post oracle (some d) = .error (400, msgBadDirection)) ∧
    (∀ praw, d.paragraph = some praw → pyStrip praw ≠ [] →
      (d.processing_direction.getD dirFirstToLast = dirFirstToLast ∨
        d.processing_direction.getD dirFirstToLast = dirLastToFirst) →
      ∀ rv, d.reprocessing_rounds = some rv → (rv < 0 ∨ 1 < rv) →
      handler_do_post oracle (some d) = .error (400, msgBadRounds)) := by
  refine ⟨rfl, ?_, ?_, ?_, ?_⟩
  · intro hp
    simp [handler_do_post, validateRequest, hp]
  · intro praw hp hempty
    simp [handler_do_post, validateRequest, hp, hempty]
  · intro praw hp hne dirS hdir h1 h2
    simp [handler_do_post, validateRequest, hp, hne, hdir, h1, h2]
  · intro praw hp hne hdirok rv hr hrange
    have hdir : ¬(d.processing_direction.getD dirFirstToLast ≠ dirFirstToLast ∧
        d.processing_direction.getD dirFirstToLast ≠ dirLastToFirst) := by
      rcases hdirok with h | h <;> simp [h]
    simp [handler_do_post, validateRequest, hp, hne, hdir, hr, hrange]

theorem claim7_validation_witness :
    (handler_do_post
        (fun _ _ _ _ _ => ⟨.ok "s".toList, .ok (), .ok (), none⟩)
        (some ⟨some "Hi there.".toList, none, some 5, none, none⟩)
      = .error (400, msgBadRounds)) ∧
    (handler_do_post
        (fun _ _ _ _ _ => ⟨.ok "s".toList, .ok (), .ok (), none⟩)
        (some ⟨some "   ".toList, none, none, none, none⟩)
      = .error (400, msgEmptyParagraph)) :=
  ⟨((claim7_validation_rejects_before_remote _ _).2.2.2.2) "Hi there.".toList
      rfl (by decide) (Or.inl rfl) 5 rfl (Or.inr (by decide)),
    ((claim7_validation_rejects_before_remote _ _).2.2.1) "   ".toList rfl
      (by decide)⟩

/-! ## Claim C9: segmenter properties -/

lemma isTerm_not_ws (c : Char) (h : isTerm c = true) : c.isWhitespace = false := by
  unfold isTerm at h
  simp only [Bool.or_eq_true, beq_iff_eq] at h
  rcases h with (h | h) | h <;> subst h <;> decide

lemma dropWhile_head_false {α : Type} (q : α → Bool) :
    ∀ (l : List α) (d : α) (ds : List α), l.dropWhile q = d :: ds → q d = false := by
  intro l
  induction l with
  | nil => intro d ds h; simp at h
  | cons c cs ih =>
    intro d ds h
    rw [List.dropWhile_cons] at h
    by_cases hc : q c = true
    · rw [if_pos hc] at h; exact ih d ds h
    · rw [if_neg hc] at h
      injection h with h1 _
      subst h1
      simpa using hc

lemma dropWhile_getLast_eq {α : Type} (q : α → Bool) (l : List α)
    (h : l.dropWhile q ≠ []) :
    (l.dropWhile q).getLast? = l.getLast? := by
  obtain ⟨t, ht⟩ := List.dropWhile_suffix q (l := l)
  rcases hx : l.dropWhile q with _ | ⟨a, as⟩
  · exact absurd hx h
  · conv_rhs => rw [← ht]
    rw [List.getLast?_append, hx, List.getLast?_eq_getLast (a :: as) (by simp)]
    rfl

lemma pyStrip_eq_nil (p : Str) (h : ∀ c ∈ p, c.isWhitespace = true) :
    pyStrip p = [] := by
  have h1 : p.dropWhile Char.isWhitespace = [] := List.dropWhile_eq_nil_iff.mpr h
  unfold pyStrip
  rw [h1]
  rfl

lemma pyStrip_head_not_ws (p : Str) (e : Char)
    (h : (pyStrip p).head? = some e) : e.isWhitespace = false := by
  unfold pyStrip at h
  rw [List.head?_reverse] at h
  have hne : (p.dropWhile Char.isWhitespace).reverse.dropWhile Char.isWhitespace
      ≠ [] := by
    intro hnil; rw [hnil] at h; simp at h
  rw [dropWhile_getLast_eq _ _ hne, List.getLast?_reverse] at h
  rcases hd : p.dropWhile Char.isWhitespace with _ | ⟨d, ds⟩
  · rw [hd] at h; simp at h
  · rw [hd] at h
    simp only [List.head?_cons, Option.some.injEq] at h
    subst h
    exact dropWhile_head_false _ p d ds hd

lemma pyStrip_getLast_not_ws (p : Str) (z : Char)
    (h : (pyStrip p).getLast? = some z) : z.isWhitespace = false := by
  unfold pyStrip at h
  rw [List.getLast?_reverse] at h
  rcases hd : (p.dropWhile Char.isWhitespace).reverse.dropWhile Char.isWhitespace
    with _ | ⟨d, ds⟩
  · rw [hd] at h; simp at h
  · rw [hd] at h
    simp only [List.head?_cons, Option.some.injEq] at h
    subst h
    exact dropWhile_head_false _ _ d ds hd

lemma strip_noop (q : Str)
    (hh : ∀ z, q.head? = some z → z.isWhitespace = false)
    (hl : ∀ z, q.getLast? = some z → z.isWhitespace = false) :
    pyStrip q = q := by
  have h1 : q.dropWhile Char.isWhitespace = q := by
    rcases q with _ | ⟨c, cs⟩
    · rfl
    · rw [List.dropWhile_cons, if_neg]
      simp [hh c rfl]
  unfold pyStrip
  rw [h1]
  have h2 : q.reverse.dropWhile Char.isWhitespace = q.reverse := by
    rcases hq : q.reverse with _ | ⟨c, cs⟩
    · rfl
    · rw [List.dropWhile_cons, if_neg]
      have hc : q.getLast? = some c := by
        rw [← List.head?_reverse, hq]; rfl
      simp [hl c hc]
  rw [h2, List.reverse_reverse]

lemma splitFinish_ne_nil (st : SplitState) : splitFinish st ≠ [] := by
  simp [splitFinish]

lemma interleave_cons (q : Str) (qs : List Str) (hqs : qs ≠ []) (sep : Str)
    (seps : List Str) :
    interleave (q :: qs) (sep :: seps) = q ++ sep ++ interleave qs seps := by
  rcases qs with _ | ⟨x, xs⟩
  · exact absurd rfl hqs
  · rfl

lemma splitStep_shift (st : SplitState) (P : List Str) (c : Char) :
    splitStep ⟨P ++ st.pieces, st.acc, st.prev, st.inSep⟩ c
      = ⟨P ++ (splitStep st c).pieces, (splitStep st c).acc,
          (splitStep st c).prev, (splitStep st c).inSep⟩ := by
  rcases st with ⟨pi, ac, pr, se⟩
  simp only [splitStep]
  split_ifs <;> simp [List.append_assoc]

lemma foldl_shift :
    ∀ (l : Str) (st : SplitState) (P : List Str),
      l.foldl splitStep ⟨P ++ st.pieces, st.acc, st.prev, st.inSep⟩
        = ⟨P ++ (l.foldl splitStep st).pieces, (l.foldl splitStep st).acc,
            (l.foldl splitStep st).prev, (l.foldl splitStep st).inSep⟩ := by
  intro l
  induction l with
  | nil => intro st P; rfl
  | cons c cs ih =>
    intro st P
    rw [List.foldl_cons, List.foldl_cons, splitStep_shift]
    exact ih (splitStep st c) P

/-- After a separator has been opened, the scanner consumes the rest of the
whitespace run; if nothing but whitespace remains, the run ends with one
final empty fragment. -/
lemma sepRun_all_ws (l : Str) :
    ∀ (prev : Char), (∀ c ∈ l, c.isWhitespace = true) →
      splitFinish (l.foldl splitStep ⟨[], [], prev, true⟩) = [[]] := by
  induction l with
  | nil => intro prev _; rfl
  | cons c cs ih =>
    intro prev hws
    rw [List.foldl_cons]
    have hc : c.isWhitespace = true := hws c (by simp)
    have hstep : splitStep ⟨[], [], prev, true⟩ c = ⟨[], [], c, true⟩ := by
      simp [splitStep, hc]
    rw [hstep]
    exact ih c (fun x hx => hws x (by simp [hx]))

/-- After a separator has been opened, once the whitespace run is over the
scanner restarts on the first non-whitespace character. -/
lemma sepRun_restarts (l : Str) :
    ∀ (prev : Char) (d : Char) (ds : Str),
      l.dropWhile Char.isWhitespace = d :: ds →
      splitFinish (l.foldl splitStep ⟨[], [], prev, true⟩)
        = splitFinish (ds.foldl splitStep ⟨[], [d], d, false⟩) := by
  induction l with
  | nil => intro prev d ds h; simp at h
  | cons c cs ih =>
    intro prev d ds h
    rw [List.dropWhile_cons] at h
    rw [List.foldl_cons]
    by_cases hc : c.isWhitespace = true
    · rw [if_pos hc] at h
      have hstep : splitStep ⟨[], [], prev, true⟩ c = ⟨[], [], c, true⟩ := by
        simp [splitStep, hc]
      rw [hstep]
      exact ih c d ds h
    · rw [if_neg hc] at h
      injection h with h1 h2
      subst h1; subst h2
      have hstep : splitStep ⟨[], [], prev, true⟩ c = ⟨[], [c], c, false⟩ := by
        simp [splitStep, hc]
      rw [hstep]

/-- The first character of the stripped input opens the first fragment:
the lookbehind can never match at position 0. -/
lemma reSplit_cons (e : Char) (es : Str) :
    reSplit (e :: es)
      = splitFinish (es.foldl splitStep ⟨[], [e], e, false⟩) := by
  unfold reSplit
  rw [List.foldl_cons]
  have hterm : isTerm 'A' = false := by decide
  have hstep : splitStep ⟨[], [], 'A', false⟩ e = ⟨[], [e], e, false⟩ := by
    simp [splitStep, hterm]
  rw [hstep]

/-- Reconstruction invariant of the scanner: starting a fragment with
(reversed) content `acc`, the fragments it cuts out of `l`, interleaved with
suitable non-empty whitespace separators, give back `acc.reverse ++ l`. -/
lemma recon :
    ∀ (n : Nat) (l : Str), l.length ≤ n → ∀ (acc : Str) (prev : Char),
      ∃ seps : List Str,
        seps.length + 1
          = (splitFinish (l.foldl splitStep ⟨[], acc, prev, false⟩)).length ∧
        (∀ s ∈ seps, s ≠ [] ∧ ∀ c ∈ s, c.isWhitespace = true) ∧
        interleave (splitFinish (l.foldl splitStep ⟨[], acc, prev, false⟩)) seps
          = acc.reverse ++ l := by
  intro n
  induction n with
  | zero =>
    intro l hl acc prev
    have hnil : l = [] := List.length_eq_zero.mp (Nat.le_zero.mp hl)
    subst hnil
    exact ⟨[], by simp [splitFinish], by simp, by simp [splitFinish, interleave]⟩
  | succ m ih =>
    intro l hl acc prev
    rcases l with _ | ⟨c, cs⟩
    · exact ⟨[], by simp [splitFinish], by simp, by simp [splitFinish, interleave]⟩
    · rw [List.foldl_cons]
      by_cases hsplit : (c.isWhitespace && isTerm prev) = true
      · have hstep : splitStep ⟨[], acc, prev, false⟩ c
            = ⟨[acc.reverse], [], c, true⟩ := by
          simp [splitStep, hsplit]
        rw [hstep]
        have hsh := foldl_shift cs ⟨[], [], c, true⟩ [acc.reverse]
        have hfin : splitFinish (cs.foldl splitStep ⟨[acc.reverse], [], c, true⟩)
            = acc.reverse :: splitFinish (cs.foldl splitStep ⟨[], [], c, true⟩) := by
          have h0 : (⟨[acc.reverse], [], c, true⟩ : SplitState)
              = ⟨[acc.reverse] ++ ([] : List Str), [], c, true⟩ := by simp
          rw [h0, hsh]
          simp [splitFinish]
        rw [hfin]
        have hws_c : c.isWhitespace = true := by
          have h := hsplit
          simp only [Bool.and_eq_true] at h
          exact h.1
        rcases hdw : cs.dropWhile Char.isWhitespace with _ | ⟨d, ds⟩
        · have hall : ∀ x ∈ cs, x.isWhitespace = true :=
            List.dropWhile_eq_nil_iff.mp hdw
          rw [sepRun_all_ws cs c hall]
          refine ⟨[c :: cs], by simp, ?_, ?_⟩
          · intro s hs
            simp only [List.mem_singleton] at hs
            subst hs
            refine ⟨by simp, ?_⟩
            intro x hx
            rcases List.mem_cons.mp hx with hx | hx
            · subst hx; exact hws_c
            · exact hall x hx
          · rw [interleave_cons _ _ (by simp)]
            simp [interleave]
        · have hds_len : ds.length ≤ m := by
            have h1 : (cs.dropWhile Char.isWhitespace).length ≤ cs.length :=
              (List.dropWhile_sublist _).length_le
            rw [hdw] at h1
            simp only [List.length_cons] at h1 hl
            omega
          rw [sepRun_restarts cs c d ds hdw]
          obtain ⟨seps', hlen', hprops', hint'⟩ := ih ds hds_len [d] d
          have hcs : cs = cs.takeWhile Char.isWhitespace ++ (d :: ds) := by
            conv_lhs => rw [← List.takeWhile_append_dropWhile
              (p := Char.isWhitespace) (l := cs)]
            rw [hdw]
          refine ⟨(c :: cs.takeWhile Char.isWhitespace) :: seps', ?_, ?_, ?_⟩
          · simp only [List.length_cons]
            omega
          · intro s hs
            rcases List.mem_cons.mp hs with hs | hs
            · subst hs
              refine ⟨by simp, ?_⟩
              intro x hx
              rcases List.mem_cons.mp hx with hx | hx
              · subst hx; exact hws_c
              · exact List.mem_takeWhile_imp hx
            · exact hprops' s hs
          · rw [interleave_cons _ _ (splitFinish_ne_nil _), hint']
            simp only [List.reverse_cons, List.reverse_nil, List.nil_append,
              List.cons_append, List.append_assoc, List.singleton_append]
            rw [← hcs]
      · have hstep : splitStep ⟨[], acc, prev, false⟩ c
            = ⟨[], c :: acc, c, false⟩ := by
          simp [splitStep, hsplit]
        rw [hstep]
        have hcs_len : cs.length ≤ m := by
          simp only [List.length_cons] at hl; omega
        obtain ⟨seps', hlen', hprops', hint'⟩ := ih cs hcs_len (c :: acc) c
        exact ⟨seps', hlen', hprops', by rw [hint']; simp⟩

/-- Shape invariant of the scanner on input with no trailing whitespace:
every fragment it emits is non-empty and has neither leading nor trailing
whitespace. -/
lemma pieces_props :
    ∀ (n : Nat) (l : Str), l.length ≤ n → ∀ (acc : Str) (prev : Char),
      acc ≠ [] →
      acc.head? = some prev →
      (∀ z, acc.getLast? = some z → z.isWhitespace = false) →
      (∀ z, (acc.reverse ++ l).getLast? = some z → z.isWhitespace = false) →
      ∀ q ∈ splitFinish (l.foldl splitStep ⟨[], acc, prev, false⟩),
        q ≠ [] ∧ (∀ z, q.head? = some z → z.isWhitespace = false) ∧
        (∀ z, q.getLast? = some z → z.isWhitespace = false) := by
  intro n
  induction n with
  | zero =>
    intro l hl acc prev h1 h2 h3 h4 q hq
    have hnil : l = [] := List.length_eq_zero.mp (Nat.le_zero.mp hl)
    subst hnil
    simp only [List.foldl_nil, splitFinish, List.nil_append,
      List.mem_singleton] at hq
    subst hq
    refine ⟨by simp [h1], ?_, ?_⟩
    · intro z hz
      rw [List.head?_reverse] at hz
      exact h3 z hz
    · intro z hz
      have h4' := h4 z
      simp only [List.append_nil] at h4'
      exact h4' hz
  | succ m ih =>
    intro l hl acc prev h1 h2 h3 h4 q hq
    rcases l with _ | ⟨c, cs⟩
    · simp only [List.foldl_nil, splitFinish, List.nil_append,
        List.mem_singleton] at hq
      subst hq
      refine ⟨by simp [h1], ?_, ?_⟩
      · intro z hz
        rw [List.head?_reverse] at hz
        exact h3 z hz
      · intro z hz
        have h4' := h4 z
        simp only [List.append_nil] at h4'
        exact h4' hz
    · rw [List.foldl_cons] at hq
      by_cases hsplit : (c.isWhitespace && isTerm prev) = true
      · have hws_c : c.isWhitespace = true := by
          have h := hsplit
          simp only [Bool.and_eq_true] at h
          exact h.1
        have hterm : isTerm prev = true := by
          have h := hsplit
          simp only [Bool.and_eq_true] at h
          exact h.2
        have hstep : splitStep ⟨[], acc, prev, false⟩ c
            = ⟨[acc.reverse], [], c, true⟩ := by
          simp [splitStep, hsplit]
        rw [hstep] at hq
        have hsh := foldl_shift cs ⟨[], [], c, true⟩ [acc.reverse]
        have hfin : splitFinish (cs.foldl splitStep ⟨[acc.reverse], [], c, true⟩)
            = acc.reverse :: splitFinish (cs.foldl splitStep ⟨[], [], c, true⟩) := by
          have h0 : (⟨[acc.reverse], [], c, true⟩ : SplitState)
              = ⟨[acc.reverse] ++ ([] : List Str), [], c, true⟩ := by simp
          rw [h0, hsh]
          simp [splitFinish]
        rw [hfin] at hq
        rcases List.mem_cons.mp hq with hq | hq
        · subst hq
          refine ⟨by simp [h1], ?_, ?_⟩
          · intro z hz
            rw [List.head?_reverse] at hz
            exact h3 z hz
          · intro z hz
            rw [List.getLast?_reverse] at hz
            rw [h2] at hz
            injection hz with hz
            subst hz
            exact isTerm_not_ws _ hterm
        · rcases hdw : cs.dropWhile Char.isWhitespace with _ | ⟨d, ds⟩
          · exfalso
            have hall : ∀ x ∈ cs, x.isWhitespace = true :=
              List.dropWhile_eq_nil_iff.mp hdw
            have hz0 : (c :: cs).getLast? = some ((c :: cs).getLast (by simp)) :=
              List.getLast?_eq_getLast _ (by simp)
            have hz0mem : (c :: cs).getLast (by simp) ∈ c :: cs :=
              List.mem_of_mem_getLast? hz0
            have hz0ws : ((c :: cs).getLast (by simp)).isWhitespace = true := by
              rcases List.mem_cons.mp hz0mem with hx | hx
              · rw [hx]; exact hws_c
              · exact hall _ hx
            have happ : (acc.reverse ++ c :: cs).getLast?
                = some ((c :: cs).getLast (by simp)) := by
              rw [List.getLast?_append, hz0]
              rfl
            have := h4 _ happ
            rw [hz0ws] at this
            exact Bool.true_eq_false.mp this
          · have hcs_ne : cs ≠ [] := by
              intro hnil
              rw [hnil] at hdw
              simp at hdw
            rw [sepRun_restarts cs c d ds hdw] at hq
            have hds_len : ds.length ≤ m := by
              have hsub : (cs.dropWhile Char.isWhitespace).length ≤ cs.length :=
                (List.dropWhile_sublist _).length_le
              rw [hdw] at hsub
              simp only [List.length_cons] at hsub hl
              omega
            refine ih ds hds_len [d] d (by simp) rfl ?_ ?_ q hq
            · intro z hz
              simp only [List.getLast?_singleton, Option.some.injEq] at hz
              subst hz
              exact dropWhile_head_false _ cs d ds hdw
            · intro z hz
              simp only [List.reverse_singleton, List.singleton_append] at hz
              have h5 : cs.getLast? = some z := by
                rw [← dropWhile_getLast_eq Char.isWhitespace cs
                  (by rw [hdw]; simp), hdw]
                exact hz
              have hcons : (c :: cs).getLast? = cs.getLast? := by
                rcases cs with _ | ⟨x, xs⟩
                · exact absurd rfl hcs_ne
                · exact List.getLast?_cons_cons
              have h6 : (acc.reverse ++ c :: cs).getLast? = some z := by
                rw [List.getLast?_append, hcons, h5]
                rfl
              exact h4 z h6
      · have hstep : splitStep ⟨[], acc, prev, false⟩ c
            = ⟨[], c :: acc, c, false⟩ := by
          simp [splitStep, hsplit]
        rw [hstep] at hq
        have hcs_len : cs.length ≤ m := by
          simp only [List.length_cons] at hl; omega
        refine ih cs hcs_len (c :: acc) c (by simp) rfl ?_ ?_ q hq
        · intro z hz
          have hcons : (c :: acc).getLast? = acc.getLast? := by
            rcases acc with _ | ⟨a, as⟩
            · exact absurd rfl h1
            · exact List.getLast?_cons_cons
          rw [hcons] at hz
          exact h3 z hz
        · intro z hz
          have heq : (c :: acc).reverse ++ cs = acc.reverse ++ c :: cs := by
            simp
          rw [heq] at hz
          exact h4 z hz

lemma split_paragraph_of_nil (p : Str) (h : pyStrip p = []) :
    split_paragraph p = [] := by
  unfold split_paragraph
  rw [h]
  rfl

lemma split_paragraph_pieces (p : Str) (e : Char) (es : Str)
    (h : pyStrip p = e :: es) :
    split_paragraph p = splitFinish (es.foldl splitStep ⟨[], [e], e, false⟩) ∧
    ∀ q ∈ splitFinish (es.foldl splitStep ⟨[], [e], e, false⟩),
      q ≠ [] ∧ pyStrip q = q := by
  have hwse : e.isWhitespace = false :=
    pyStrip_head_not_ws p e (by rw [h]; rfl)
  have hlast : ∀ z, ([e].reverse ++ es).getLast? = some z →
      z.isWhitespace = false := by
    intro z hz
    have heq : [e].reverse ++ es = e :: es := by simp
    rw [heq, ← h] at hz
    exact pyStrip_getLast_not_ws p z hz
  have hprops := pieces_props es.length es le_rfl [e] e (by simp) rfl
    (fun z hz => by
      simp only [List.getLast?_singleton, Option.some.injEq] at hz
      subst hz
      exact hwse)
    hlast
  constructor
  · unfold split_paragraph
    rw [h, reSplit_cons]
    have hmap : (splitFinish (es.foldl splitStep ⟨[], [e], e, false⟩)).map pyStrip
        = splitFinish (es.foldl splitStep ⟨[], [e], e, false⟩) := by
      rw [List.map_congr_left
        (fun a ha => strip_noop a ((hprops a ha).2.1) ((hprops a ha).2.2))]
      exact List.map_id' _
    rw [hmap]
    apply List.filter_eq_self.mpr
    intro a ha
    simpa using (hprops a ha).1
  · intro q hq
    exact ⟨(hprops q hq).1,
      strip_noop q ((hprops q hq).2.1) ((hprops q hq).2.2)⟩

/-- Claim C9: `split_paragraph` is a total function; an empty or
all-whitespace input yields no sentences; every emitted sentence is
non-empty and already whitespace-trimmed; and the sentences, interleaved
with suitable non-empty whitespace separators, reconstruct exactly the
stripped input paragraph. -/
theorem claim9_segmenter_props (p : Str) :
    ((∀ c ∈ p, c.isWhitespace = true) → split_paragraph p = []) ∧
    (∀ q ∈ split_paragraph p, q ≠ [] ∧ pyStrip q = q) ∧
    ∃ seps : List Str,
      (∀ s ∈ seps, s ≠ [] ∧ ∀ c ∈ s, c.isWhitespace = true) ∧
      interleave (split_paragraph p) seps = pyStrip p ∧
      (split_paragraph p ≠ [] →
        seps.length + 1 = (split_paragraph p).length) := by
  refine ⟨?_, ?_, ?_⟩
  · intro hws
    exact split_paragraph_of_nil p (pyStrip_eq_nil p hws)
  · rcases hps : pyStrip p with _ | ⟨e, es⟩
    · rw [split_paragraph_of_nil p hps]
      intro q hq
      simp at hq
    · obtain ⟨heq, hqs⟩ := split_paragraph_pieces p e es hps
      rw [heq]
      exact hqs
  · rcases hps : pyStrip p with _ | ⟨e, es⟩
    · refine ⟨[], by simp, ?_, ?_⟩
      · rw [split_paragraph_of_nil p hps]
        rfl
      · rw [split_paragraph_of_nil p hps]
        intro hcon
        exact absurd rfl hcon
    · obtain ⟨heq, _⟩ := split_paragraph_pieces p e es hps
      obtain ⟨seps, hlen, hsep, hint⟩ := recon es.length es le_rfl [e] e
      refine ⟨seps, hsep, ?_, ?_⟩
      · rw [heq, hint]
        simp
      · intro _
        rw [heq]
        exact hlen

theorem claim9_segmenter_props_witness :
    split_paragraph "   ".toList = [] :=
  (claim9_segmenter_props ("   ".toList)).1 (by decide)

theorem claim10_graceful_no_result_witness :
    (process_sentence_with_author ⟨.ok "s1".toList, .ok (), .ok (), none⟩
      "Hi.".toList 0 "EB White".toList).success = true ∧
    (process_sentence_with_author ⟨.ok "s1".toList, .ok (), .ok (), none⟩
      "Hi.".toList 0 "EB White".toList).improved_sentence = none :=
  claim10_graceful_no_result _ "Hi.".toList 0 "EB White".toList
    ("s1".toList) rfl rfl rfl rfl

end WriteAid
